import Mathlib

/-!
# Verification of the ESP32-C2 eFuse field layer (`espefuse/efuse/esp32c2/fields.py`)

This file gives a shallow embedding of the eFuse block codec, the burn
protocol, the error accounting pass and the typed field layer of the
ESP32-C2 eFuse module, and proves the specification claims about them.

The Reed-Solomon codec used by `EfuseBlock.apply_coding_scheme` lives in the
external `reedsolo` library (not part of this repository); it is modelled
from the spec as the standard systematic Reed-Solomon code over GF(2^8)
with the `reedsolo` default parameters (primitive polynomial 0x11d,
generator element 2, first consecutive root exponent 0, 12 parity bytes).
-/

namespace Esp32c2

set_option maxRecDepth 16384
set_option maxHeartbeats 1600000

/-! ## GF(2^8) arithmetic on `Nat`

`xtime` multiplies by the polynomial x and reduces by the primitive
polynomial 0x11d; `gfmulNat` is the Russian-peasant carry-less product with
interleaved reduction, the standard definition of multiplication in
GF(2^8) that `reedsolo`'s log/exp tables implement. -/

def xtime (a : Nat) : Nat :=
  if a < 128 then 2 * a else (2 * a) ^^^ 0x11d

def gfmulFuel : Nat → Nat → Nat → Nat
  | 0, _, _ => 0
  | fuel + 1, a, b =>
      if b = 0 then 0
      else (if b % 2 = 1 then a else 0) ^^^ gfmulFuel fuel (xtime a) (b / 2)

def gfmulNat (a b : Nat) : Nat := gfmulFuel b a b

theorem gfmulFuel_zero (f a : Nat) : gfmulFuel f a 0 = 0 := by
  cases f <;> simp [gfmulFuel]

theorem gfmulFuel_congr :
    ∀ {f : Nat} {f' a b : Nat}, b ≤ f → b ≤ f' → gfmulFuel f a b = gfmulFuel f' a b := by
  intro f
  induction f with
  | zero =>
      intro f' a b hb _
      have : b = 0 := Nat.le_zero.mp hb
      subst this
      rw [gfmulFuel_zero, gfmulFuel_zero]
  | succ f ih =>
      intro f' a b hb hb'
      by_cases h : b = 0
      · subst h
        rw [gfmulFuel_zero, gfmulFuel_zero]
      · obtain ⟨f'', rfl⟩ : ∃ f'', f' = f'' + 1 := by
          cases f'
          · omega
          · exact ⟨_, rfl⟩
        simp only [gfmulFuel, h, if_neg]
        have hlt : b / 2 < b := Nat.div_lt_self (Nat.pos_of_ne_zero h) (by decide)
        have hrec : gfmulFuel f (xtime a) (b / 2) = gfmulFuel f'' (xtime a) (b / 2) :=
          ih (by omega) (by omega)
        rw [hrec]

theorem xor_lt_256 {a b : Nat} (ha : a < 256) (hb : b < 256) : a ^^^ b < 256 := by
  have h : a ^^^ b < 2 ^ 8 := Nat.bitwise_lt (by norm_num [ha]) (by norm_num [hb])
  norm_num at h
  exact h

theorem xor_left_comm (a b c : Nat) : a ^^^ (b ^^^ c) = b ^^^ (a ^^^ c) := by
  rw [← Nat.xor_assoc, Nat.xor_comm a b, Nat.xor_assoc]

theorem xor_cancel_left (a b : Nat) : a ^^^ (a ^^^ b) = b := by
  rw [← Nat.xor_assoc, Nat.xor_self, Nat.zero_xor]

theorem xtime_lt_aux : ∀ a < 256, xtime a < 256 := by decide

theorem xtime_lt {a : Nat} (h : a < 256) : xtime a < 256 := xtime_lt_aux a h

theorem two_mul_xor (a b : Nat) : 2 * (a ^^^ b) = 2 * a ^^^ 2 * b := by
  apply Nat.eq_of_testBit_eq
  intro i
  cases i with
  | zero => simp [Nat.testBit_zero, Nat.mul_mod_right]
  | succ n =>
      rw [Nat.testBit_xor]
      simp only [Nat.testBit_succ, Nat.mul_div_cancel_left _ (by norm_num : 0 < 2)]
      rw [Nat.testBit_xor]

theorem testBit7_iff {x : Nat} (hx : x < 256) : x.testBit 7 = false ↔ x < 128 := by
  rw [Nat.testBit_to_div_mod]
  simp only [decide_eq_false_iff_not]
  omega

theorem xtime_xor {a b : Nat} (ha : a < 256) (hb : b < 256) :
    xtime (a ^^^ b) = xtime a ^^^ xtime b := by
  have hxab : a ^^^ b < 256 := xor_lt_256 ha hb
  have hbit : (a ^^^ b).testBit 7 = (a.testBit 7).xor (b.testBit 7) := by
    simp [Nat.testBit_xor, Bool.xor]
  unfold xtime
  by_cases h1 : a < 128 <;> by_cases h2 : b < 128
  · have hab : a ^^^ b < 128 := by
      rw [← testBit7_iff hxab] at *
      rw [← testBit7_iff ha] at h1
      rw [← testBit7_iff hb] at h2
      simp [hbit, h1, h2]
    simp [h1, h2, hab, two_mul_xor]
  · have hab : ¬ a ^^^ b < 128 := by
      rw [← testBit7_iff hxab, ← Bool.not_eq_true] at *
      rw [← testBit7_iff ha] at h1
      rw [← testBit7_iff hb, ← Bool.not_eq_true] at h2
      simp only [hbit, h1, Bool.xor]
      simp only [Bool.not_eq_true] at h2 ⊢
      simp [h2]
    simp only [h1, h2, hab, if_true, if_false, ite_true, ite_false, two_mul_xor]
    simp [Nat.xor_assoc, Nat.xor_comm, xor_left_comm]
  · have hab : ¬ a ^^^ b < 128 := by
      rw [← testBit7_iff hxab, ← Bool.not_eq_true] at *
      rw [← testBit7_iff ha, ← Bool.not_eq_true] at h1
      rw [← testBit7_iff hb] at h2
      simp only [Bool.not_eq_true] at h1 ⊢
      simp [hbit, h1, h2]
    simp only [h1, h2, hab, if_true, if_false, ite_true, ite_false, two_mul_xor]
    simp [Nat.xor_assoc, Nat.xor_comm, xor_left_comm]
  · have hab : a ^^^ b < 128 := by
      rw [← testBit7_iff hxab] at *
      rw [← testBit7_iff ha, ← Bool.not_eq_true] at h1
      rw [← testBit7_iff hb, ← Bool.not_eq_true] at h2
      simp only [Bool.not_eq_true] at h1 h2
      simp [hbit, h1, h2]
    simp only [h1, h2, hab, if_true, if_false, ite_true, ite_false, two_mul_xor]
    simp [Nat.xor_assoc, Nat.xor_comm, xor_left_comm]

theorem gfmulNat_eq (a b : Nat) :
    gfmulNat a b =
      if b = 0 then 0 else (if b % 2 = 1 then a else 0) ^^^ gfmulNat (xtime a) (b / 2) := by
  unfold gfmulNat
  by_cases h : b = 0
  · subst h
    rw [gfmulFuel_zero]
    rfl
  · obtain ⟨n, rfl⟩ : ∃ n, b = n + 1 := by
      cases b
      · omega
      · exact ⟨_, rfl⟩
    simp only [gfmulFuel, h, if_neg]
    have hrec : gfmulFuel n (xtime a) ((n + 1) / 2) =
        gfmulFuel ((n + 1) / 2) (xtime a) ((n + 1) / 2) :=
      gfmulFuel_congr (by omega) (by omega)
    rw [hrec]

theorem gfmulNat_zero_right (a : Nat) : gfmulNat a 0 = 0 := by
  simp [gfmulNat_eq]

theorem gfmulNat_lt {a : Nat} (ha : a < 256) (b : Nat) : gfmulNat a b < 256 := by
  induction b using Nat.strong_induction_on generalizing a with
  | _ b ih =>
    rw [gfmulNat_eq]
    split
    · decide
    · exact xor_lt_256 (by split <;> omega)
        (ih _ (Nat.div_lt_self (Nat.pos_of_ne_zero (by assumption)) (by decide))
          (xtime_lt ha))

theorem gfmulNat_zero_left (b : Nat) : gfmulNat 0 b = 0 := by
  induction b using Nat.strong_induction_on with
  | _ b ih =>
    rw [gfmulNat_eq]
    split
    · rfl
    · have hx : xtime 0 = 0 := by decide
      rw [hx, ih _ (Nat.div_lt_self (Nat.pos_of_ne_zero (by assumption)) (by decide))]
      split <;> rfl

theorem gfmulNat_xor_left {a a' : Nat} (ha : a < 256) (ha' : a' < 256) (b : Nat) :
    gfmulNat (a ^^^ a') b = gfmulNat a b ^^^ gfmulNat a' b := by
  induction b using Nat.strong_induction_on generalizing a a' with
  | _ b ih =>
    rw [gfmulNat_eq (a ^^^ a') b, gfmulNat_eq a b, gfmulNat_eq a' b]
    split
    · simp
    · rw [xtime_xor ha ha',
        ih _ (Nat.div_lt_self (Nat.pos_of_ne_zero (by assumption)) (by decide))
          (xtime_lt ha) (xtime_lt ha')]
      split
      · simp [Nat.xor_assoc, Nat.xor_comm, xor_left_comm]
      · simp [Nat.xor_assoc, Nat.xor_comm, xor_left_comm]

theorem xor_mod_two (a b : Nat) : (a ^^^ b) % 2 = (a % 2) ^^^ (b % 2) := by
  rw [Nat.xor_mod_two_eq, Nat.add_mod]
  rcases Nat.mod_two_eq_zero_or_one a with h | h <;>
    rcases Nat.mod_two_eq_zero_or_one b with h' | h' <;> rw [h, h'] <;> decide

theorem xor_div_two (a b : Nat) : (a ^^^ b) / 2 = a / 2 ^^^ b / 2 := by
  apply Nat.eq_of_testBit_eq
  intro i
  rw [Nat.testBit_xor, ← Nat.testBit_succ, ← Nat.testBit_succ, ← Nat.testBit_succ,
    Nat.testBit_xor]

theorem gfmulNat_xor_right (a : Nat) (b b' : Nat) :
    gfmulNat a (b ^^^ b') = gfmulNat a b ^^^ gfmulNat a b' := by
  induction b using Nat.strong_induction_on generalizing a b' with
  | _ b ih =>
    by_cases hb : b = 0
    · subst hb
      simp [gfmulNat_zero_right]
    by_cases hb' : b' = 0
    · subst hb'
      simp [gfmulNat_zero_right]
    by_cases hbb : b ^^^ b' = 0
    · rw [hbb, Nat.xor_eq_zero.mp hbb, Nat.xor_self, gfmulNat_zero_right]
    rw [gfmulNat_eq a (b ^^^ b'), gfmulNat_eq a b, gfmulNat_eq a b',
      if_neg hbb, if_neg hb, if_neg hb',
      xor_div_two, ih _ (Nat.div_lt_self (Nat.pos_of_ne_zero hb) (by decide)),
      xor_mod_two]
    rcases Nat.mod_two_eq_zero_or_one b with h2 | h2 <;>
      rcases Nat.mod_two_eq_zero_or_one b' with h2' | h2' <;>
        simp [h2, h2', Nat.xor_assoc, Nat.xor_comm, xor_left_comm, xor_cancel_left]

/-! ### Extending basis facts to all of GF(2^8)

Multiplication is GF(2)-bilinear, so commutativity and associativity follow
from their instances on the power-of-two basis (checked by `decide`) by
induction over the set bits of each argument. -/

def topBitIdx (a : Nat) : Nat :=
  if 128 ≤ a then 7 else if 64 ≤ a then 6 else if 32 ≤ a then 5 else if 16 ≤ a then 4
  else if 8 ≤ a then 3 else if 4 ≤ a then 2 else if 2 ≤ a then 1 else 0

theorem gf_split_aux : ∀ a < 256, a ≠ 0 →
    topBitIdx a < 8 ∧ 2 ^ topBitIdx a < 256 ∧ a ^^^ 2 ^ topBitIdx a < a ∧
      2 ^ topBitIdx a ^^^ (a ^^^ 2 ^ topBitIdx a) = a := by decide

theorem gf_bit_ind (P : Nat → Prop) (h0 : P 0) (hp : ∀ i < 8, P (2 ^ i))
    (hx : ∀ a b, a < 256 → b < 256 → P a → P b → P (a ^^^ b)) :
    ∀ a < 256, P a := by
  intro a
  induction a using Nat.strong_induction_on with
  | _ a ih =>
    intro ha
    by_cases h : a = 0
    · exact h ▸ h0
    · obtain ⟨h1, h2, h3, h4⟩ := gf_split_aux a ha h
      have hP := hx _ _ h2 (Nat.lt_trans h3 ha) (hp _ h1)
        (ih _ h3 (Nat.lt_trans h3 ha))
      rwa [h4] at hP

theorem gf_comm_pow : ∀ i < 8, ∀ j < 8,
    gfmulNat (2 ^ i) (2 ^ j) = gfmulNat (2 ^ j) (2 ^ i) := by decide

theorem gf_assoc_pow : ∀ i < 8, ∀ j < 8, ∀ k < 8,
    gfmulNat (gfmulNat (2 ^ i) (2 ^ j)) (2 ^ k) =
      gfmulNat (2 ^ i) (gfmulNat (2 ^ j) (2 ^ k)) := by decide

theorem gf_one_mul_aux : ∀ b < 256, gfmulNat 1 b = b := by decide

theorem gfmulNat_one (a : Nat) : gfmulNat a 1 = a := by
  simp [gfmulNat_eq, gfmulNat_zero_right]

theorem gfmulNat_comm : ∀ a < 256, ∀ b < 256, gfmulNat a b = gfmulNat b a := by
  apply gf_bit_ind
  · intro b _
    rw [gfmulNat_zero_left, gfmulNat_zero_right]
  · intro i hi
    apply gf_bit_ind
    · rw [gfmulNat_zero_left, gfmulNat_zero_right]
    · intro j hj
      exact gf_comm_pow i hi j hj
    · intro b b' hb hb' hb1 hb2
      rw [gfmulNat_xor_right, gfmulNat_xor_left hb hb', hb1, hb2]
  · intro a a' ha ha' hc hc' b hb
    rw [gfmulNat_xor_left ha ha', gfmulNat_xor_right, hc b hb, hc' b hb]

theorem gfmulNat_assoc : ∀ a < 256, ∀ b < 256, ∀ c < 256,
    gfmulNat (gfmulNat a b) c = gfmulNat a (gfmulNat b c) := by
  apply gf_bit_ind
  · intro b _ c _
    rw [gfmulNat_zero_left, gfmulNat_zero_left, gfmulNat_zero_left]
  · intro i hi
    have hpi : (2 : Nat) ^ i < 256 := by
      calc (2 : Nat) ^ i < 2 ^ 8 := Nat.pow_lt_pow_right (by decide) hi
      _ = 256 := by decide
    apply gf_bit_ind
    · intro c _
      rw [gfmulNat_zero_right, gfmulNat_zero_left, gfmulNat_zero_right]
    · intro j hj
      have hpj : (2 : Nat) ^ j < 256 := by
        calc (2 : Nat) ^ j < 2 ^ 8 := Nat.pow_lt_pow_right (by decide) hj
        _ = 256 := by decide
      apply gf_bit_ind
      · rw [gfmulNat_zero_right, gfmulNat_zero_right, gfmulNat_zero_right]
      · intro k hk
        exact gf_assoc_pow i hi j hj k hk
      · intro c c' hcl hcl' hc1 hc2
        rw [gfmulNat_xor_right, gfmulNat_xor_right, gfmulNat_xor_right, hc1, hc2]
    · intro b b' hb hb' hb1 hb2 c hc
      rw [gfmulNat_xor_right, gfmulNat_xor_left (gfmulNat_lt hpi b) (gfmulNat_lt hpi b'),
        gfmulNat_xor_left hb hb', gfmulNat_xor_right, hb1 c hc, hb2 c hc]
  · intro a a' ha ha' h1 h2 b hb c hc
    rw [gfmulNat_xor_left ha ha', gfmulNat_xor_left (gfmulNat_lt ha b) (gfmulNat_lt ha' b),
      gfmulNat_xor_left ha ha', h1 b hb c hc, h2 b hb c hc]

/-! ## The field GF(2^8) as a type -/

/-- An element of GF(2^8): a byte. Addition is xor; multiplication is
carry-less multiplication reduced by the primitive polynomial 0x11d. -/
structure GF where
  val : Nat
  lt : val < 256

theorem GF.ext_val : ∀ {x y : GF}, x.val = y.val → x = y := by
  intro x y h
  cases x
  cases y
  simp_all

instance : DecidableEq GF := fun x y =>
  decidable_of_iff (x.val = y.val) ⟨GF.ext_val, congrArg GF.val⟩

instance : Zero GF := ⟨⟨0, by decide⟩⟩

instance : One GF := ⟨⟨1, by decide⟩⟩

instance : Add GF := ⟨fun x y => ⟨x.val ^^^ y.val, xor_lt_256 x.lt y.lt⟩⟩

instance : Mul GF := ⟨fun x y => ⟨gfmulNat x.val y.val, gfmulNat_lt x.lt y.val⟩⟩

instance : Neg GF := ⟨fun x => x⟩

theorem GF.add_val (x y : GF) : (x + y).val = x.val ^^^ y.val := rfl

theorem GF.mul_val (x y : GF) : (x * y).val = gfmulNat x.val y.val := rfl

theorem GF.zero_val : (0 : GF).val = 0 := rfl

theorem GF.one_val : (1 : GF).val = 1 := rfl

instance : CommRing GF where
  nsmul := nsmulRec
  zsmul := zsmulRec
  add_assoc a b c := GF.ext_val (Nat.xor_assoc a.val b.val c.val)
  add_comm a b := GF.ext_val (Nat.xor_comm a.val b.val)
  zero_add a := GF.ext_val (Nat.zero_xor a.val)
  add_zero a := GF.ext_val (Nat.xor_zero a.val)
  neg_add_cancel a := GF.ext_val (Nat.xor_self a.val)
  mul_assoc a b c := GF.ext_val (gfmulNat_assoc a.val a.lt b.val b.lt c.val c.lt)
  mul_comm a b := GF.ext_val (gfmulNat_comm a.val a.lt b.val b.lt)
  one_mul a := GF.ext_val (gf_one_mul_aux a.val a.lt)
  mul_one a := GF.ext_val (gfmulNat_one a.val)
  zero_mul a := GF.ext_val (gfmulNat_zero_left a.val)
  mul_zero a := GF.ext_val (gfmulNat_zero_right a.val)
  left_distrib a b c := GF.ext_val (gfmulNat_xor_right a.val b.val c.val)
  right_distrib a b c := GF.ext_val (gfmulNat_xor_left a.lt b.lt c.val)

theorem GF.add_self (x : GF) : x + x = 0 := GF.ext_val (Nat.xor_self x.val)

theorem GF.eq_of_add_eq_zero {a b : GF} (h : a + b = 0) : b = a := by
  have h2 : a + (a + b) = a + 0 := by rw [h]
  rwa [← add_assoc, GF.add_self, zero_add, add_zero] at h2

/-! ## Polynomials over GF(2^8)

Coefficient lists are most-significant-first, as in `reedsolo`; `polyEval`
is Horner evaluation (`gf_poly_eval`). -/

def polyEval (p : List GF) (x : GF) : GF :=
  p.foldl (fun acc c => acc * x + c) 0

def polyAdd (p q : List GF) : List GF := List.zipWith (· + ·) p q

def polyScale (c : GF) (p : List GF) : List GF := p.map (fun d => c * d)

/-- Multiplication of a polynomial by the linear factor `x + r`
(the step of `reedsolo`'s `rs_generator_poly` loop). -/
def polyMulLin (p : List GF) (r : GF) : List GF :=
  polyAdd (p ++ [0]) (0 :: polyScale r p)

def gf2 : GF := ⟨2, by decide⟩

/-- `α^i`, the powers of the generator element 2 of GF(2^8). -/
def gfpow2 (i : Nat) : GF := gf2 ^ i

/-- Modelled from the spec: `reedsolo`'s `rs_generator_poly(nsym)`, the
monic generator polynomial `∏ i < nsym, (x + α^i)`. -/
def rsGenPoly (nsym : Nat) : List GF :=
  (List.range nsym).foldl (fun g i => polyMulLin g (gfpow2 i)) [1]

/-- The generator polynomial of the (44, 32) code: 12 parity symbols. -/
def g12 : List GF := rsGenPoly 12

/-- The non-leading coefficients of `g12` (`gen[1:]` in `rs_encode_msg`). -/
def gTail : List GF := g12.tail

theorem gTail_length : gTail.length = 12 := by decide

theorem g12_cons : g12 = 1 :: gTail := by decide

theorem g12_roots : ∀ i < 12, polyEval g12 (gfpow2 i) = 0 := by decide

theorem polyEval_foldl_init (p : List GF) (x a : GF) :
    List.foldl (fun acc c => acc * x + c) a p =
      a * x ^ p.length + List.foldl (fun acc c => acc * x + c) 0 p := by
  induction p generalizing a with
  | nil => simp
  | cons c p ih =>
      rw [List.foldl_cons, List.foldl_cons, ih (a * x + c), ih (0 * x + c),
        List.length_cons]
      ring

theorem polyEval_cons (c : GF) (p : List GF) (x : GF) :
    polyEval (c :: p) x = c * x ^ p.length + polyEval p x := by
  unfold polyEval
  rw [List.foldl_cons, polyEval_foldl_init p x (0 * x + c)]
  ring

theorem polyEval_append (p q : List GF) (x : GF) :
    polyEval (p ++ q) x = polyEval p x * x ^ q.length + polyEval q x := by
  unfold polyEval
  rw [List.foldl_append, polyEval_foldl_init q x]

theorem polyEval_polyAdd_aux (p : List GF) :
    ∀ (q : List GF), p.length = q.length → ∀ (x a b : GF),
      List.foldl (fun acc c => acc * x + c) (a + b) (polyAdd p q) =
        List.foldl (fun acc c => acc * x + c) a p +
          List.foldl (fun acc c => acc * x + c) b q := by
  induction p with
  | nil =>
      intro q hq x a b
      cases q
      · rfl
      · simp at hq
  | cons c p ih =>
      intro q hq x a b
      cases q with
      | nil => simp at hq
      | cons d q' =>
          simp only [polyAdd, List.zipWith_cons_cons, List.foldl_cons]
          have h1 : (a + b) * x + (c + d) = (a * x + c) + (b * x + d) := by ring
          rw [h1]
          exact ih q' (by simpa using hq) x (a * x + c) (b * x + d)

theorem polyEval_polyAdd {p q : List GF} (h : p.length = q.length) (x : GF) :
    polyEval (polyAdd p q) x = polyEval p x + polyEval q x := by
  have h2 := polyEval_polyAdd_aux p q h x 0 0
  rw [add_zero (0 : GF)] at h2
  exact h2

theorem polyEval_polyScale_aux (p : List GF) :
    ∀ (x a : GF) (c : GF),
      List.foldl (fun acc d => acc * x + d) (c * a) (polyScale c p) =
        c * List.foldl (fun acc d => acc * x + d) a p := by
  induction p with
  | nil => intro x a c; rfl
  | cons d p ih =>
      intro x a c
      simp only [polyScale, List.map_cons, List.foldl_cons]
      have h1 : c * a * x + c * d = c * (a * x + d) := by ring
      rw [h1]
      exact ih x (a * x + d) c

theorem polyEval_polyScale (c : GF) (p : List GF) (x : GF) :
    polyEval (polyScale c p) x = c * polyEval p x := by
  have h2 := polyEval_polyScale_aux p x 0 c
  rw [mul_zero c] at h2
  exact h2

theorem polyEval_replicate_zero (n : Nat) (x : GF) :
    polyEval (List.replicate n 0) x = 0 := by
  induction n with
  | zero => rfl
  | succ n ih =>
      rw [List.replicate_succ, polyEval_cons, ih]
      ring

/-! ## The systematic Reed-Solomon encoder -/

/-- Modelled from the spec: one step of `reedsolo`'s `rs_encode_msg`
synthetic division. The 12-byte remainder register absorbs one message
byte: `coef` (= `msg_out[i]`) is the incoming byte xor the register top,
and `coef * gen[1:]` is xored into the shifted register. -/
def rsStep (r : List GF) (b : GF) : List GF :=
  match r with
  | [] => []
  | r0 :: rest => polyAdd (rest ++ [0]) (polyScale (r0 + b) gTail)

/-- The 12 parity bytes: remainder of `msg(x) · x^12` modulo `g12`. -/
def rsParity (msg : List GF) : List GF := msg.foldl rsStep (List.replicate 12 0)

/-- Modelled from the spec: `reedsolo.RSCodec(12).encode` on a message —
the systematic codeword, data followed by the 12 parity bytes. -/
def rsEncode (msg : List GF) : List GF := msg ++ rsParity msg

theorem rsStep_length {r : List GF} (h : r.length = 12) (b : GF) :
    (rsStep r b).length = 12 := by
  cases r with
  | nil => simp at h
  | cons r0 rest =>
      have h' : rest.length = 11 := by simpa using h
      simp [rsStep, polyAdd, polyScale, List.length_zipWith, h', gTail_length]

theorem foldl_rsStep_length (msg : List GF) :
    ∀ r : List GF, r.length = 12 → (msg.foldl rsStep r).length = 12 := by
  induction msg with
  | nil => intro r h; exact h
  | cons m msg ih =>
      intro r h
      rw [List.foldl_cons]
      exact ih _ (rsStep_length h m)

theorem rsParity_length (msg : List GF) : (rsParity msg).length = 12 :=
  foldl_rsStep_length msg _ (by simp)

theorem rsParity_spec (msg : List GF) (x : GF) (hroot : polyEval g12 x = 0) :
    polyEval (rsParity msg) x = polyEval msg x * x ^ 12 := by
  have hgt : polyEval gTail x = x ^ 12 := by
    have h1 : polyEval g12 x = 1 * x ^ gTail.length + polyEval gTail x := by
      rw [g12_cons, polyEval_cons]
    rw [gTail_length, hroot, one_mul] at h1
    exact GF.eq_of_add_eq_zero h1.symm
  induction msg using List.reverseRecOn with
  | nil =>
      have : polyEval ([] : List GF) x = 0 := rfl
      rw [this, zero_mul]
      exact polyEval_replicate_zero 12 x
  | append_singleton msg b ih =>
      have hfold : rsParity (msg ++ [b]) = rsStep (rsParity msg) b := by
        unfold rsParity
        rw [List.foldl_append]
        rfl
      obtain ⟨r0, rest, hR⟩ : ∃ r0 rest, rsParity msg = r0 :: rest := by
        cases hc : rsParity msg with
        | nil =>
            have h12 := rsParity_length msg
            rw [hc] at h12
            simp at h12
        | cons a l => exact ⟨a, l, rfl⟩
      have hrestlen : rest.length = 11 := by
        have h12 := rsParity_length msg
        rw [hR] at h12
        simpa using h12
      rw [hfold, hR]
      show polyEval (polyAdd (rest ++ [0]) (polyScale (r0 + b) gTail)) x = _
      rw [polyEval_polyAdd (by simp [polyScale, gTail_length, hrestlen]) x,
        polyEval_append, polyEval_polyScale, hgt]
      have h00 : polyEval [(0 : GF)] x = 0 := by
        show (0 : GF) * x + 0 = 0
        ring
      have hbb : polyEval [b] x = 0 * x + b := rfl
      have hIH : r0 * x ^ 11 + polyEval rest x = polyEval msg x * x ^ 12 := by
        rw [← ih, hR, polyEval_cons, hrestlen]
      rw [h00, polyEval_append, hbb]
      simp only [List.length_singleton]
      linear_combination (x : GF) * hIH

theorem rsEncode_root (msg : List GF) {x : GF} (hroot : polyEval g12 x = 0) :
    polyEval (rsEncode msg) x = 0 := by
  unfold rsEncode
  rw [polyEval_append, rsParity_length, rsParity_spec msg x hroot]
  exact GF.add_self _

/-- The 12 syndromes of a word: its evaluations at the roots `α^i` of the
generator polynomial (`reedsolo`'s `rs_calc_syndromes`). -/
def calcSyndromes (cw : List GF) : List GF :=
  (List.range 12).map (fun i => polyEval cw (gfpow2 i))

/-- Modelled from the spec: Reed-Solomon decoding with zero injected
errors (`reedsolo.rs_correct_msg`): compute the 12 syndromes; when all
are zero the codeword is intact and the message is everything but the
last 12 bytes. (With nonzero syndromes error correction would engage;
the spec's round-trip law concerns only the zero-error case.) -/
def rsDecode (cw : List GF) : Option (List GF) :=
  if (calcSyndromes cw).all (fun s => s == 0) then some (cw.take (cw.length - 12))
  else none

theorem rsDecode_rsEncode (msg : List GF) : rsDecode (rsEncode msg) = some msg := by
  unfold rsDecode
  have hall : (calcSyndromes (rsEncode msg)).all (fun s => s == 0) = true := by
    rw [List.all_eq_true]
    intro s hs
    unfold calcSyndromes at hs
    obtain ⟨i, hi, rfl⟩ := List.mem_map.mp hs
    have hi' : i < 12 := List.mem_range.mp hi
    simpa using rsEncode_root msg (g12_roots i hi')
  rw [if_pos hall]
  have hlen : (rsEncode msg).length = msg.length + 12 := by
    unfold rsEncode
    rw [List.length_append, rsParity_length]
  rw [hlen]
  simp only [Nat.add_sub_cancel]
  unfold rsEncode
  rw [List.take_left]

/-! ## Bytes, little-endian words, and `EfuseBlock.apply_coding_scheme` -/

def toGF (n : Nat) : GF := ⟨n % 256, Nat.mod_lt _ (by decide)⟩

theorem toGF_val {n : Nat} (h : n < 256) : (toGF n).val = n := Nat.mod_eq_of_lt h

theorem toGF_val_self (x : GF) : toGF x.val = x := GF.ext_val (Nat.mod_eq_of_lt x.lt)

/-- `struct.unpack("<" + "I"*(len//4), data)`: split a byte string into
little-endian 32-bit words. -/
def bytesToWordsLE : List Nat → List Nat
  | b0 :: b1 :: b2 :: b3 :: rest =>
      (b0 + 256 * b1 + 65536 * b2 + 16777216 * b3) :: bytesToWordsLE rest
  | _ => []

def wordToBytesLE (w : Nat) : List Nat :=
  [w % 256, w / 256 % 256, w / 65536 % 256, w / 16777216 % 256]

def wordsToBytesLE (ws : List Nat) : List Nat := (ws.map wordToBytesLE).flatten

theorem bytesToWordsLE_length :
    ∀ l : List Nat, (bytesToWordsLE l).length = l.length / 4
  | [] => rfl
  | [_] => by simp [bytesToWordsLE]
  | [_, _] => by simp [bytesToWordsLE]
  | [_, _, _] => by simp [bytesToWordsLE]
  | b0 :: b1 :: b2 :: b3 :: rest => by
      rw [bytesToWordsLE]
      simp only [List.length_cons, bytesToWordsLE_length rest]
      omega

theorem wordsToBytesLE_bytesToWordsLE :
    ∀ l : List Nat, (∀ b ∈ l, b < 256) → l.length % 4 = 0 →
      wordsToBytesLE (bytesToWordsLE l) = l
  | [], _, _ => rfl
  | [_], _, hl => by simp at hl
  | [_, _], _, hl => by simp at hl
  | [_, _, _], _, hl => by simp at hl
  | b0 :: b1 :: b2 :: b3 :: rest, hb, hl => by
      have h0 : b0 < 256 := hb b0 (by simp)
      have h1 : b1 < 256 := hb b1 (by simp)
      have h2 : b2 < 256 := hb b2 (by simp)
      have h3 : b3 < 256 := hb b3 (by simp)
      have hrest : wordsToBytesLE (bytesToWordsLE rest) = rest :=
        wordsToBytesLE_bytesToWordsLE rest (fun b hbm => hb b (by simp [hbm]))
          (by simp only [List.length_cons] at hl; omega)
      rw [bytesToWordsLE]
      show wordToBytesLE _ ++ wordsToBytesLE (bytesToWordsLE rest) = _
      rw [hrest]
      unfold wordToBytesLE
      have e0 : (b0 + 256 * b1 + 65536 * b2 + 16777216 * b3) % 256 = b0 := by omega
      have e1 : (b0 + 256 * b1 + 65536 * b2 + 16777216 * b3) / 256 % 256 = b1 := by omega
      have e2 : (b0 + 256 * b1 + 65536 * b2 + 16777216 * b3) / 65536 % 256 = b2 := by
        omega
      have e3 : (b0 + 256 * b1 + 65536 * b2 + 16777216 * b3) / 16777216 % 256 = b3 := by
        omega
      rw [e0, e1, e2, e3]
      rfl

theorem bytesToWordsLE_lt :
    ∀ l : List Nat, (∀ b ∈ l, b < 256) → ∀ w ∈ bytesToWordsLE l, w < 2 ^ 32
  | [], _, w, hw => by simp [bytesToWordsLE] at hw
  | [_], _, w, hw => by simp [bytesToWordsLE] at hw
  | [_, _], _, w, hw => by simp [bytesToWordsLE] at hw
  | [_, _, _], _, w, hw => by simp [bytesToWordsLE] at hw
  | b0 :: b1 :: b2 :: b3 :: rest, hb, w, hw => by
      rw [bytesToWordsLE] at hw
      rcases List.mem_cons.mp hw with h | h
      · have h0 : b0 < 256 := hb b0 (by simp)
        have h1 : b1 < 256 := hb b1 (by simp)
        have h2 : b2 < 256 := hb b2 (by simp)
        have h3 : b3 < 256 := hb b3 (by simp)
        subst h
        have : (2 : Nat) ^ 32 = 4294967296 := by norm_num
        omega
      · exact bytesToWordsLE_lt rest (fun b hbm => hb b (by simp [hbm])) w h

theorem bytesToWordsLE_append :
    ∀ l1 l2 : List Nat, l1.length % 4 = 0 →
      bytesToWordsLE (l1 ++ l2) = bytesToWordsLE l1 ++ bytesToWordsLE l2
  | [], _, _ => by simp [bytesToWordsLE]
  | [_], _, hl => by simp at hl
  | [_, _], _, hl => by simp at hl
  | [_, _, _], _, hl => by simp at hl
  | b0 :: b1 :: b2 :: b3 :: rest, l2, hl => by
      have hrest :
          bytesToWordsLE (rest ++ l2) = bytesToWordsLE rest ++ bytesToWordsLE l2 :=
        bytesToWordsLE_append rest l2 (by simp only [List.length_cons] at hl; omega)
      show bytesToWordsLE (b0 :: b1 :: b2 :: b3 :: (rest ++ l2)) = _
      rw [bytesToWordsLE, hrest, bytesToWordsLE]
      rfl

theorem rsEncode_length (msg : List GF) : (rsEncode msg).length = msg.length + 12 := by
  unfold rsEncode
  rw [List.length_append, rsParity_length]

theorem map_val_toGF {l : List Nat} (h : ∀ b ∈ l, b < 256) :
    (l.map toGF).map GF.val = l := by
  rw [List.map_map]
  have : ∀ b ∈ l, (GF.val ∘ toGF) b = id b := fun b hb => toGF_val (h b hb)
  rw [List.map_congr_left this, List.map_id]

theorem map_toGF_val (l : List GF) : (l.map GF.val).map toGF = l := by
  rw [List.map_map]
  have : ∀ x ∈ l, (toGF ∘ GF.val) x = id x := fun x _ => toGF_val_self x
  rw [List.map_congr_left this, List.map_id]

theorem mem_map_val_lt (l : List GF) : ∀ b ∈ l.map GF.val, b < 256 := by
  intro b hb
  obtain ⟨x, _, rfl⟩ := List.mem_map.mp hb
  exact x.lt

/-- The two coding schemes of this chip family
(`REGS.CODING_SCHEME_NONE` / `REGS.CODING_SCHEME_RS`). -/
inductive CodingScheme
  | none_
  | rs
deriving DecidableEq

/-- `EfuseBlock.len_of_burn_unit`: the writing register window is
8 registers, 4 bytes each. -/
def len_of_burn_unit : Nat := 8 * 4

/-- The zero-padding step of `apply_coding_scheme`: right-pad with zero
bytes up to the burn-unit length when shorter. -/
def padData (data : List Nat) : List Nat :=
  if data.length < len_of_burn_unit then
    data ++ List.replicate (len_of_burn_unit - data.length) 0
  else data

/-- `EfuseBlock.apply_coding_scheme`: reverse the raw bytes, right-pad
with zero bytes up to the burn-unit length when shorter, then either
Reed-Solomon-encode (32 data + 12 parity bytes) and split into 11
little-endian 32-bit words, or split the bytes directly into
little-endian 32-bit words. -/
def apply_coding_scheme (scheme : CodingScheme) (raw : List Nat) : List Nat :=
  let data := padData raw.reverse
  if scheme = CodingScheme.rs then
    bytesToWordsLE ((rsEncode (data.map toGF)).map GF.val)
  else
    bytesToWordsLE data

theorem padData_length {d : List Nat} (h : d.length <= 32) : (padData d).length = 32 := by
  unfold padData len_of_burn_unit
  split
  · simp only [List.length_append, List.length_replicate]
    omega
  · omega

theorem padData_of_length_eq {d : List Nat} (h : d.length = 32) : padData d = d := by
  unfold padData len_of_burn_unit
  rw [if_neg (by omega)]

theorem apply_coding_scheme_rs (P : List Nat) (hlen : P.length = 32) :
    apply_coding_scheme CodingScheme.rs P.reverse =
      bytesToWordsLE ((rsEncode (P.map toGF)).map GF.val) := by
  unfold apply_coding_scheme
  rw [List.reverse_reverse, padData_of_length_eq hlen]
  rfl

/-- **C1**: for every 32-byte payload, the REED_SOLOMON branch of
`EfuseBlock.apply_coding_scheme` yields exactly 11 little-endian 32-bit
words; the first 8 words recombine to the payload; the last 3 words are
the 12 parity bytes of the systematic (44, 32) Reed-Solomon code appended
after the data; and decoding the 44-byte concatenation with the same
Reed-Solomon parameters and zero injected errors reproduces the payload. -/
theorem claim_C1 (P : List Nat) (hlen : P.length = 32) (hb : ∀ b ∈ P, b < 256) :
    (apply_coding_scheme CodingScheme.rs P.reverse).length = 11 ∧
    (∀ w ∈ apply_coding_scheme CodingScheme.rs P.reverse, w < 2 ^ 32) ∧
    wordsToBytesLE ((apply_coding_scheme CodingScheme.rs P.reverse).take 8) = P ∧
    wordsToBytesLE ((apply_coding_scheme CodingScheme.rs P.reverse).drop 8) =
      (rsParity (P.map toGF)).map GF.val ∧
    Option.map (List.map GF.val)
      (rsDecode ((wordsToBytesLE
        (apply_coding_scheme CodingScheme.rs P.reverse)).map toGF)) = some P := by
  have hmsglen : (P.map toGF).length = 32 := by rw [List.length_map, hlen]
  have hE : apply_coding_scheme CodingScheme.rs P.reverse =
      bytesToWordsLE ((rsEncode (P.map toGF)).map GF.val) := apply_coding_scheme_rs P hlen
  have hEbytes : (rsEncode (P.map toGF)).map GF.val =
      P ++ (rsParity (P.map toGF)).map GF.val := by
    unfold rsEncode
    rw [List.map_append, map_val_toGF hb]
  have hElen : ((rsEncode (P.map toGF)).map GF.val).length = 44 := by
    rw [List.length_map, rsEncode_length, hmsglen]
  have hElt : ∀ b ∈ (rsEncode (P.map toGF)).map GF.val, b < 256 := mem_map_val_lt _
  refine ⟨?_, ?_, ?_, ?_, ?_⟩
  · rw [hE, bytesToWordsLE_length, hElen]
  · rw [hE]
    exact bytesToWordsLE_lt _ hElt
  · rw [hE, hEbytes, bytesToWordsLE_append _ _ (by rw [hlen]),
      show (8 : Nat) = (bytesToWordsLE P).length from by rw [bytesToWordsLE_length, hlen],
      List.take_left]
    exact wordsToBytesLE_bytesToWordsLE P hb (by rw [hlen])
  · rw [hE, hEbytes, bytesToWordsLE_append _ _ (by rw [hlen]),
      show (8 : Nat) = (bytesToWordsLE P).length from by rw [bytesToWordsLE_length, hlen],
      List.drop_left]
    exact wordsToBytesLE_bytesToWordsLE _ (mem_map_val_lt _)
      (by rw [List.length_map, rsParity_length])
  · rw [hE, wordsToBytesLE_bytesToWordsLE _ hElt (by rw [hElen]),
      map_toGF_val, rsDecode_rsEncode]
    show some ((P.map toGF).map GF.val) = some P
    rw [map_val_toGF hb]

/-- Witness for C1 at the all-zero 32-byte payload. -/
theorem claim_C1_witness :
    (apply_coding_scheme CodingScheme.rs (List.replicate 32 0).reverse).length = 11 ∧
    (∀ w ∈ apply_coding_scheme CodingScheme.rs (List.replicate 32 0).reverse,
      w < 2 ^ 32) ∧
    wordsToBytesLE ((apply_coding_scheme CodingScheme.rs
      (List.replicate 32 0).reverse).take 8) = List.replicate 32 0 ∧
    wordsToBytesLE ((apply_coding_scheme CodingScheme.rs
      (List.replicate 32 0).reverse).drop 8) =
      (rsParity ((List.replicate 32 0).map toGF)).map GF.val ∧
    Option.map (List.map GF.val)
      (rsDecode ((wordsToBytesLE (apply_coding_scheme CodingScheme.rs
        (List.replicate 32 0).reverse)).map toGF)) = some (List.replicate 32 0) :=
  claim_C1 (List.replicate 32 0) (by decide) (by decide)

/-- **C8**: for every payload of length at most the burn-unit length
(32 bytes), the NONE branch of `EfuseBlock.apply_coding_scheme` yields
exactly `len_of_burn_unit / 4` (= 8) little-endian 32-bit words whose
little-endian concatenation is the payload right-padded with zero bytes
up to the burn-unit length: the payload is padded, never truncated. -/
theorem claim_C8 (P : List Nat) (hlen : P.length ≤ 32) (hb : ∀ b ∈ P, b < 256) :
    (apply_coding_scheme CodingScheme.none_ P.reverse).length = len_of_burn_unit / 4 ∧
    len_of_burn_unit / 4 = 8 ∧
    wordsToBytesLE (apply_coding_scheme CodingScheme.none_ P.reverse) =
      P ++ List.replicate (len_of_burn_unit - P.length) 0 ∧
    (∀ w ∈ apply_coding_scheme CodingScheme.none_ P.reverse, w < 2 ^ 32) := by
  have hA : apply_coding_scheme CodingScheme.none_ P.reverse =
      bytesToWordsLE (padData P) := by
    unfold apply_coding_scheme
    rw [List.reverse_reverse]
    rfl
  have hpad : padData P = P ++ List.replicate (len_of_burn_unit - P.length) 0 := by
    unfold padData
    split
    · rfl
    · have h32 : P.length = 32 := by
        unfold len_of_burn_unit at *
        omega
      rw [show len_of_burn_unit - P.length = 0 from by
        unfold len_of_burn_unit
        omega]
      simp
  have hplen : (padData P).length = 32 := padData_length hlen
  have hplt : ∀ b ∈ padData P, b < 256 := by
    intro b hbm
    rw [hpad] at hbm
    rcases List.mem_append.mp hbm with h | h
    · exact hb b h
    · rw [List.eq_of_mem_replicate h]
      omega
  refine ⟨?_, rfl, ?_, ?_⟩
  · rw [hA, bytesToWordsLE_length, hplen]
    rfl
  · rw [hA, wordsToBytesLE_bytesToWordsLE _ hplt (by rw [hplen]), hpad]
  · rw [hA]
    exact bytesToWordsLE_lt _ hplt

/-- Witness for C8 at the 3-byte payload `[1, 2, 3]`. -/
theorem claim_C8_witness :
    (apply_coding_scheme CodingScheme.none_ [1, 2, 3].reverse).length =
      len_of_burn_unit / 4 ∧
    len_of_burn_unit / 4 = 8 ∧
    wordsToBytesLE (apply_coding_scheme CodingScheme.none_ [1, 2, 3].reverse) =
      [1, 2, 3] ++ List.replicate (len_of_burn_unit - [1, 2, 3].length) 0 ∧
    (∀ w ∈ apply_coding_scheme CodingScheme.none_ [1, 2, 3].reverse, w < 2 ^ 32) :=
  claim_C8 [1, 2, 3] (by decide) (by decide)

/-! ## The session coding scheme (`EspEfuses.read_coding_scheme`) -/

structure SessionState where
  coding_scheme : CodingScheme

/-- `EspEfuses.read_coding_scheme`: unconditionally records the
Reed-Solomon coding scheme, regardless of any hardware state. -/
def read_coding_scheme (s : SessionState) : SessionState :=
  { s with coding_scheme := CodingScheme.rs }

structure EfuseBlockModel where
  id : Nat
  scheme : CodingScheme

/-- Modelled from the spec: the base layer's
`EfuseBlockBase.get_coding_scheme` (`base_fields.py`, not under src).
Only some blocks are protected by the error-correcting code, and block
0's protection word "is not covered by the same error-control mechanism
as other blocks": block 0's coding scheme is NONE, every other block
carries the session's coding scheme. -/
def get_coding_scheme (s : SessionState) (id : Nat) : CodingScheme :=
  if id = 0 then CodingScheme.none_ else s.coding_scheme

/-- `EfuseBlock.__init__`: invokes `parent.read_coding_scheme()` before
constructing the block; the block is then built carrying its own coding
scheme per `get_coding_scheme`. -/
def mkEfuseBlock (s : SessionState) (id : Nat) : SessionState × EfuseBlockModel :=
  let s' := read_coding_scheme s
  (s', { id := id, scheme := get_coding_scheme s' id })

/-- The `EspEfuses.__init__` block construction loop. -/
def mkBlocks (s : SessionState) (ids : List Nat) :
    SessionState × List EfuseBlockModel :=
  match ids with
  | [] => (s, [])
  | id :: rest =>
      let p := mkEfuseBlock s id
      let q := mkBlocks p.1 rest
      (q.1, p.2 :: q.2)

theorem mkBlocks_scheme (s : SessionState) (ids : List Nat) :
    ∀ blk ∈ (mkBlocks s ids).2,
      blk.scheme = if blk.id = 0 then CodingScheme.none_ else CodingScheme.rs := by
  induction ids generalizing s with
  | nil =>
      intro blk h
      simp [mkBlocks] at h
  | cons id rest ih =>
      intro blk h
      rw [mkBlocks] at h
      rcases List.mem_cons.mp h with h | h
      · rw [h]
        rfl
      · exact ih _ blk h

/-- **C10** (amended): `read_coding_scheme` unconditionally records the
Reed-Solomon coding scheme regardless of prior state, and it runs
before each block is constructed; consequently every block other than
block 0 carries the RS scheme and its `apply_coding_scheme` takes the
Reed-Solomon branch, yielding exactly 11 words.  Block 0, whose
protection word is not covered by the same error-control mechanism,
carries the NONE scheme and takes the NONE word-split branch (8 words):
that branch is reachable exactly for block 0. -/
theorem claim_C10 (s0 : SessionState) (ids : List Nat) :
    (∀ s : SessionState, (read_coding_scheme s).coding_scheme = CodingScheme.rs) ∧
    (∀ blk ∈ (mkBlocks s0 ids).2, blk.id ≠ 0 → blk.scheme = CodingScheme.rs) ∧
    (∀ blk ∈ (mkBlocks s0 ids).2, blk.id = 0 → blk.scheme = CodingScheme.none_) ∧
    (∀ blk ∈ (mkBlocks s0 ids).2, blk.id ≠ 0 → ∀ raw : List Nat, raw.length ≤ 32 →
      apply_coding_scheme blk.scheme raw =
        bytesToWordsLE ((rsEncode ((padData raw.reverse).map toGF)).map GF.val) ∧
      (apply_coding_scheme blk.scheme raw).length = 11) ∧
    (∀ blk ∈ (mkBlocks s0 ids).2, blk.id = 0 → ∀ raw : List Nat, raw.length ≤ 32 →
      apply_coding_scheme blk.scheme raw = bytesToWordsLE (padData raw.reverse) ∧
      (apply_coding_scheme blk.scheme raw).length = 8) := by
  refine ⟨fun _ => rfl, ?_, ?_, ?_, ?_⟩
  · intro blk hblk hid
    rw [mkBlocks_scheme s0 ids blk hblk, if_neg hid]
  · intro blk hblk hid
    rw [mkBlocks_scheme s0 ids blk hblk, if_pos hid]
  · intro blk hblk hid raw hraw
    have hsch : blk.scheme = CodingScheme.rs := by
      rw [mkBlocks_scheme s0 ids blk hblk, if_neg hid]
    rw [hsch]
    have hbranch : apply_coding_scheme CodingScheme.rs raw =
        bytesToWordsLE ((rsEncode ((padData raw.reverse).map toGF)).map GF.val) := rfl
    refine ⟨hbranch, ?_⟩
    rw [hbranch, bytesToWordsLE_length, List.length_map, rsEncode_length,
      List.length_map, padData_length (by rw [List.length_reverse]; exact hraw)]
  · intro blk hblk hid raw hraw
    have hsch : blk.scheme = CodingScheme.none_ := by
      rw [mkBlocks_scheme s0 ids blk hblk, if_pos hid]
    rw [hsch]
    have hbranch : apply_coding_scheme CodingScheme.none_ raw =
        bytesToWordsLE (padData raw.reverse) := rfl
    refine ⟨hbranch, ?_⟩
    rw [hbranch, bytesToWordsLE_length,
      padData_length (by rw [List.length_reverse]; exact hraw)]

/-- Counterexample to C10 as stated: in a session built over blocks 0
and 1, block 0 does not carry the Reed-Solomon scheme, and its
`apply_coding_scheme` on a 32-byte raw value returns 8 words, not 11 —
the NONE word-split branch is reachable. -/
theorem claim_C10_counterexample :
    ∃ blk ∈ (mkBlocks ⟨CodingScheme.rs⟩ [0, 1]).2,
      blk.scheme ≠ CodingScheme.rs ∧
      (apply_coding_scheme blk.scheme (List.replicate 32 0)).length = 8 ∧
      ¬ (apply_coding_scheme blk.scheme (List.replicate 32 0)).length = 11 := by
  decide

/-! ## The programming controller (`EspEfuses` burn protocol)

Register access is modelled as an event trace.  `wait_efuse_idle` polls
the status register under a wall-clock deadline; the finite list `polls`
holds the successive values the status register yields before the
deadline expires, so exhausting the list is the deadline elapsing.
Register addresses and opcode constants live in `mem_definition.py`
(not under src); they are modelled from the spec as abstract static
configuration. -/

/-- A register-interface event, in program order. -/
inductive Ev
  | rd (addr val : Nat)
  | wr (addr val : Nat)
  | wrDelay (addr val delay : Nat)
  | upd (addr mask val : Nat)
deriving DecidableEq

/-- Fatal errors of the burn protocol (`esptool.FatalError`). -/
inductive Fatal
  | timeout
  | wrongFreq (freq : Nat)
deriving DecidableEq

/-- Modelled from the spec: the register addresses and opcode constants
of `EfuseDefineRegisters` (`mem_definition.py` is not part of src). -/
structure Regs where
  EFUSE_STATUS_REG : Nat
  EFUSE_CONF_REG : Nat
  EFUSE_CMD_REG : Nat
  EFUSE_PGM_DATA0_REG : Nat
  EFUSE_WRITE_OP_CODE : Nat
  EFUSE_READ_OP_CODE : Nat
  EFUSE_PGM_CMD : Nat
  EFUSE_READ_CMD : Nat
  EFUSE_WR_TIM_CONF2_REG : Nat
  EFUSE_PWR_OFF_NUM_M : Nat

/-- `EspEfuses.wait_efuse_idle`: poll the status register until its low
3 bits equal binary 001; exhausting `polls` is the deadline elapsing, a
fatal timeout. Returns the reads performed and the unconsumed polls. -/
def wait_efuse_idle (R : Regs) : List Nat → Except Fatal (List Ev × List Nat)
  | [] => .error .timeout
  | v :: rest =>
      if v &&& 7 = 1 then .ok ([.rd R.EFUSE_STATUS_REG v], rest)
      else
        match wait_efuse_idle R rest with
        | .ok (t, rem) => .ok (.rd R.EFUSE_STATUS_REG v :: t, rem)
        | .error e => .error e

/-- The eight zero-writes of `EspEfuses.clear_pgm_registers`:
`range(EFUSE_PGM_DATA0_REG, EFUSE_PGM_DATA0_REG + 32, 4)`. -/
def pgmClearWrites (R : Regs) : List Ev :=
  (List.range 8).map (fun i => Ev.wr (R.EFUSE_PGM_DATA0_REG + 4 * i) 0)

/-- `EspEfuses.clear_pgm_registers`: wait idle, then zero the eight
programming-data registers. -/
def clear_pgm_registers (R : Regs) (polls : List Nat) :
    Except Fatal (List Ev × List Nat) :=
  match wait_efuse_idle R polls with
  | .error e => .error e
  | .ok (t, rem) => .ok (t ++ pgmClearWrites R, rem)

/-- `EspEfuses.efuse_read`: wait idle; write the read opcode to the
configuration register; write the read command with a 1000 µs post-write
delay; wait idle. -/
def efuse_read (R : Regs) (polls : List Nat) :
    Except Fatal (List Ev × List Nat) :=
  match wait_efuse_idle R polls with
  | .error e => .error e
  | .ok (t1, rem1) =>
      match wait_efuse_idle R rem1 with
      | .error e => .error e
      | .ok (t2, rem2) =>
          .ok (t1 ++ [Ev.wr R.EFUSE_CONF_REG R.EFUSE_READ_OP_CODE,
                Ev.wrDelay R.EFUSE_CMD_REG R.EFUSE_READ_CMD 1000] ++ t2, rem2)

/-- `EspEfuses.efuse_program`: wait idle; write the write opcode to the
configuration register; write the program command with the block id in
the command's block-select bits; wait idle; clear the programming-data
registers; perform a verification read. -/
def efuse_program (R : Regs) (block : Nat) (polls : List Nat) :
    Except Fatal (List Ev × List Nat) :=
  match wait_efuse_idle R polls with
  | .error e => .error e
  | .ok (t1, rem1) =>
      match wait_efuse_idle R rem1 with
      | .error e => .error e
      | .ok (t2, rem2) =>
          match clear_pgm_registers R rem2 with
          | .error e => .error e
          | .ok (t3, rem3) =>
              match efuse_read R rem3 with
              | .error e => .error e
              | .ok (t4, rem4) =>
                  .ok (t1 ++ [Ev.wr R.EFUSE_CONF_REG R.EFUSE_WRITE_OP_CODE,
                        Ev.wr R.EFUSE_CMD_REG (R.EFUSE_PGM_CMD ||| (block <<< 2))] ++
                      t2 ++ t3 ++ t4, rem4)

/-- `EspEfuses.set_efuse_timing`: read the crystal frequency; fail
fatally unless it is 40 MHz; on success write the fixed constant 0x190
into the power-off-count field of the timing register.  An error result
carries no events: no register is touched before the frequency check. -/
def set_efuse_timing (R : Regs) (apb_freq : Nat) : Except Fatal (List Ev) :=
  if apb_freq ≠ 40 then .error (.wrongFreq apb_freq)
  else .ok [Ev.upd R.EFUSE_WR_TIM_CONF2_REG R.EFUSE_PWR_OFF_NUM_M 0x190]

/-- A completed idle-wait's trace: some failed polls, then the first
idle read (low 3 bits = 001). -/
def IsWaitTrace (R : Regs) (t : List Ev) : Prop :=
  ∃ pre v, (∀ u ∈ pre, u &&& 7 ≠ 1) ∧ v &&& 7 = 1 ∧
    t = (pre ++ [v]).map (Ev.rd R.EFUSE_STATUS_REG)

theorem wait_ok_shape (R : Regs) :
    ∀ (polls : List Nat) (t : List Ev) (rem : List Nat),
      wait_efuse_idle R polls = .ok (t, rem) → IsWaitTrace R t := by
  intro polls
  induction polls with
  | nil => intro t rem h; simp [wait_efuse_idle] at h
  | cons v rest ih =>
      intro t rem h
      rw [wait_efuse_idle] at h
      by_cases hv : v &&& 7 = 1
      · rw [if_pos hv] at h
        cases h
        exact ⟨[], v, by simp, hv, rfl⟩
      · rw [if_neg hv] at h
        cases hw : wait_efuse_idle R rest with
        | error e => rw [hw] at h; cases h
        | ok p =>
            rw [hw] at h
            cases h
            obtain ⟨pre, w, hpre, hw7, ht⟩ := ih p.1 p.2 (by rw [hw])
            exact ⟨v :: pre, w, by
              intro u hu
              rcases List.mem_cons.mp hu with h | h
              · rw [h]; exact hv
              · exact hpre u h, hw7, by simp [ht]⟩

/-- **C3**: `wait_efuse_idle` returns as soon as a status read has its
low 3 bits equal to binary 001 — consuming exactly the failed polls plus
that first idle read — and fails with the fatal timeout error when no
poll before the deadline shows the pattern; these are the only two
outcomes (the function is total, it cannot hang). -/
theorem claim_C3 (R : Regs) (polls : List Nat) :
    (∀ pre v rest, polls = pre ++ v :: rest → (∀ u ∈ pre, u &&& 7 ≠ 1) →
      v &&& 7 = 1 →
      wait_efuse_idle R polls =
        .ok ((pre ++ [v]).map (Ev.rd R.EFUSE_STATUS_REG), rest)) ∧
    ((∀ u ∈ polls, u &&& 7 ≠ 1) → wait_efuse_idle R polls = .error .timeout) ∧
    ((∃ t rem, wait_efuse_idle R polls = .ok (t, rem)) ∨
      wait_efuse_idle R polls = .error .timeout) := by
  refine ⟨?_, ?_, ?_⟩
  · intro pre
    induction pre generalizing polls with
    | nil =>
        intro v rest hp _ hv
        subst hp
        simp [wait_efuse_idle, hv]
    | cons u pre ih =>
        intro v rest hp hpre hv
        subst hp
        have hu : u &&& 7 ≠ 1 := hpre u (by simp)
        rw [List.cons_append, wait_efuse_idle, if_neg hu,
          ih (pre ++ v :: rest) v rest rfl
            (fun w hw => hpre w (by simp [hw])) hv]
        simp
  · induction polls with
    | nil => intro _; rfl
    | cons v rest ih =>
        intro hall
        rw [wait_efuse_idle, if_neg (hall v (by simp)), ih (fun u hu => hall u (by simp [hu]))]
  · induction polls with
    | nil => exact Or.inr rfl
    | cons v rest ih =>
        by_cases hv : v &&& 7 = 1
        · exact Or.inl ⟨_, _, by rw [wait_efuse_idle, if_pos hv]⟩
        · rcases ih with ⟨t, rem, hok⟩ | herr
          · exact Or.inl ⟨_, _, by rw [wait_efuse_idle, if_neg hv, hok]⟩
          · exact Or.inr (by rw [wait_efuse_idle, if_neg hv, herr])

theorem clear_ok_shape (R : Regs) (polls : List Nat) (t : List Ev) (rem : List Nat)
    (h : clear_pgm_registers R polls = .ok (t, rem)) :
    ∃ tw, IsWaitTrace R tw ∧ t = tw ++ pgmClearWrites R := by
  unfold clear_pgm_registers at h
  cases hw : wait_efuse_idle R polls with
  | error e => rw [hw] at h; cases h
  | ok p =>
      rw [hw] at h
      cases h
      exact ⟨p.1, wait_ok_shape R polls p.1 p.2 (by rw [hw]), rfl⟩

theorem read_ok_shape (R : Regs) (polls : List Nat) (t : List Ev) (rem : List Nat)
    (h : efuse_read R polls = .ok (t, rem)) :
    ∃ t4 t5, IsWaitTrace R t4 ∧ IsWaitTrace R t5 ∧
      t = t4 ++ [Ev.wr R.EFUSE_CONF_REG R.EFUSE_READ_OP_CODE,
        Ev.wrDelay R.EFUSE_CMD_REG R.EFUSE_READ_CMD 1000] ++ t5 := by
  unfold efuse_read at h
  split at h
  · cases h
  next t1 rem1 hw1 =>
    split at h
    · cases h
    next t2 rem2 hw2 =>
      cases h
      exact ⟨t1, t2, wait_ok_shape _ _ _ _ hw1, wait_ok_shape _ _ _ _ hw2, rfl⟩

/-- **C2**: a successful burn of one block performs exactly, in order: an
idle wait; the write opcode to the configuration register; the program
command with the block id in the command's block-select bits; an idle
wait; the zeroing of the eight programming-data registers (preceded by
`clear_pgm_registers`' own idle wait); and finally the verification read
sequence of `efuse_read`, so the caller observes the just-burned state. -/
theorem claim_C2 (R : Regs) (block : Nat) (polls : List Nat) (trace : List Ev)
    (rem : List Nat) (h : efuse_program R block polls = .ok (trace, rem)) :
    ∃ t1 t2 t3 t4 t5, IsWaitTrace R t1 ∧ IsWaitTrace R t2 ∧ IsWaitTrace R t3 ∧
      IsWaitTrace R t4 ∧ IsWaitTrace R t5 ∧
      trace = t1 ++ [Ev.wr R.EFUSE_CONF_REG R.EFUSE_WRITE_OP_CODE,
          Ev.wr R.EFUSE_CMD_REG (R.EFUSE_PGM_CMD ||| (block <<< 2))] ++
        t2 ++ (t3 ++ pgmClearWrites R) ++
        (t4 ++ [Ev.wr R.EFUSE_CONF_REG R.EFUSE_READ_OP_CODE,
          Ev.wrDelay R.EFUSE_CMD_REG R.EFUSE_READ_CMD 1000] ++ t5) := by
  unfold efuse_program at h
  split at h
  · cases h
  next t1 rem1 hw1 =>
    split at h
    · cases h
    next t2 rem2 hw2 =>
      split at h
      · cases h
      next t3 rem3 hw3 =>
        split at h
        · cases h
        next t4 rem4 hw4 =>
          cases h
          obtain ⟨tw, hw, ht3⟩ := clear_ok_shape _ _ _ _ hw3
          obtain ⟨u4, u5, h4, h5, ht4⟩ := read_ok_shape _ _ _ _ hw4
          exact ⟨t1, t2, tw, u4, u5,
            wait_ok_shape _ _ _ _ hw1,
            wait_ok_shape _ _ _ _ hw2,
            hw, h4, h5, by rw [ht3, ht4]⟩

/-- A concrete register map for witnesses. -/
def R0 : Regs := ⟨1, 2, 3, 4, 5, 6, 7, 8, 9, 10⟩

/-- Witness for C2: a burn of block 0 with five idle polls. -/
theorem claim_C2_witness :
    ∃ t1 t2 t3 t4 t5, IsWaitTrace R0 t1 ∧ IsWaitTrace R0 t2 ∧ IsWaitTrace R0 t3 ∧
      IsWaitTrace R0 t4 ∧ IsWaitTrace R0 t5 ∧
      [Ev.rd 1 1, Ev.wr 2 5, Ev.wr 3 7, Ev.rd 1 1, Ev.rd 1 1, Ev.wr 4 0, Ev.wr 8 0,
        Ev.wr 12 0, Ev.wr 16 0, Ev.wr 20 0, Ev.wr 24 0, Ev.wr 28 0, Ev.wr 32 0,
        Ev.rd 1 1, Ev.wr 2 6, Ev.wrDelay 3 8 1000, Ev.rd 1 1] =
        t1 ++ [Ev.wr R0.EFUSE_CONF_REG R0.EFUSE_WRITE_OP_CODE,
          Ev.wr R0.EFUSE_CMD_REG (R0.EFUSE_PGM_CMD ||| (0 <<< 2))] ++
        t2 ++ (t3 ++ pgmClearWrites R0) ++
        (t4 ++ [Ev.wr R0.EFUSE_CONF_REG R0.EFUSE_READ_OP_CODE,
          Ev.wrDelay R0.EFUSE_CMD_REG R0.EFUSE_READ_CMD 1000] ++ t5) :=
  claim_C2 R0 0 [1, 1, 1, 1, 1]
    [Ev.rd 1 1, Ev.wr 2 5, Ev.wr 3 7, Ev.rd 1 1, Ev.rd 1 1, Ev.wr 4 0, Ev.wr 8 0,
      Ev.wr 12 0, Ev.wr 16 0, Ev.wr 20 0, Ev.wr 24 0, Ev.wr 28 0, Ev.wr 32 0,
      Ev.rd 1 1, Ev.wr 2 6, Ev.wrDelay 3 8 1000, Ev.rd 1 1] [] (by rfl)

/-- **C4**: `set_efuse_timing` fails fatally for every crystal frequency
other than 40 and performs no register write before the frequency check
(an error result carries an empty event trace); at exactly 40 it writes
the fixed constant 0x190 to the power-off-count field of the timing
register and succeeds.  In particular it fails at 26 and 48 and succeeds
at 40. -/
theorem claim_C4 (R : Regs) (freq : Nat) :
    (freq ≠ 40 → set_efuse_timing R freq = .error (.wrongFreq freq)) ∧
    (freq = 40 →
      set_efuse_timing R freq =
        .ok [Ev.upd R.EFUSE_WR_TIM_CONF2_REG R.EFUSE_PWR_OFF_NUM_M 0x190]) ∧
    set_efuse_timing R 26 = .error (.wrongFreq 26) ∧
    set_efuse_timing R 48 = .error (.wrongFreq 48) ∧
    set_efuse_timing R 40 =
      .ok [Ev.upd R.EFUSE_WR_TIM_CONF2_REG R.EFUSE_PWR_OFF_NUM_M 0x190] := by
  refine ⟨?_, ?_, rfl, rfl, rfl⟩
  · intro h
    simp [set_efuse_timing, h]
  · intro h
    subst h
    rfl

/-! ## Error accounting (`EspEfuses.get_coding_scheme_warnings`) -/

/-- The big-endian bit representation of a value in a given width
(`BitArray.append("uint:32=%d" % word)`). -/
def natToBitsBE : Nat → Nat → List Bool
  | 0, _ => []
  | n + 1, v => v.testBit n :: natToBitsBE n v

/-- `BitArray.overwrite(data, pos)`: replace the bits at
`[pos, pos + data.length)`. -/
def overwriteBits (buf data : List Bool) (pos : Nat) : List Bool :=
  buf.take pos ++ data ++ buf.drop (pos + data.length)

/-- Block 0 of `get_coding_scheme_warnings`: read the one-word repeat
error status register, overlay its 32 bits into the error-tracking bit
buffer at bit offset 32, count set bits, and fail iff the count is
nonzero. Returns (buffer, num_errors, fail). -/
def get_coding_scheme_warnings_block0 (word : Nat) (err_bitarray : List Bool) :
    List Bool × Nat × Bool :=
  let data := natToBitsBE 32 word
  let buf := overwriteBits err_bitarray data 32
  let n := buf.count true
  (buf, n, n ≠ 0)

theorem natToBitsBE_length (n v : Nat) : (natToBitsBE n v).length = n := by
  induction n generalizing v with
  | zero => rfl
  | succ n ih => simp [natToBitsBE, ih]

/-- **C5**: after the block 0 error-accounting pass, the repeat-error
status word is overlaid into the error-tracking bit buffer at bit offset
32 (past the 32-bit write-disable word, whose bits stay untouched and so
are excluded from accounting), `num_errors` is the number of set bits of
the buffer, and `fail` holds iff `num_errors` is nonzero. -/
theorem claim_C5 (word : Nat) (err : List Bool) (hlen : 64 ≤ err.length) :
    (get_coding_scheme_warnings_block0 word err).1 =
      err.take 32 ++ natToBitsBE 32 word ++ err.drop 64 ∧
    (get_coding_scheme_warnings_block0 word err).1.take 32 = err.take 32 ∧
    (get_coding_scheme_warnings_block0 word err).2.1 =
      (get_coding_scheme_warnings_block0 word err).1.count true ∧
    ((get_coding_scheme_warnings_block0 word err).2.2 = true ↔
      (get_coding_scheme_warnings_block0 word err).2.1 ≠ 0) := by
  have hbuf : (get_coding_scheme_warnings_block0 word err).1 =
      err.take 32 ++ natToBitsBE 32 word ++ err.drop 64 := by
    show overwriteBits err (natToBitsBE 32 word) 32 = _
    unfold overwriteBits
    rw [natToBitsBE_length]
  refine ⟨hbuf, ?_, rfl, by simp [get_coding_scheme_warnings_block0]⟩
  rw [hbuf]
  rw [List.take_append_of_le_length]
  · rw [List.take_append_of_le_length]
    · rw [List.take_take]
      simp
    · rw [List.length_take]
      omega
  · rw [List.length_append, List.length_take, natToBitsBE_length]
    omega

/-- Witness for C5: status word 5 over a 64-bit all-clear buffer. -/
theorem claim_C5_witness :
    (get_coding_scheme_warnings_block0 5 (List.replicate 64 false)).1 =
      (List.replicate 64 false).take 32 ++ natToBitsBE 32 5 ++
        (List.replicate 64 false).drop 64 ∧
    (get_coding_scheme_warnings_block0 5 (List.replicate 64 false)).1.take 32 =
      (List.replicate 64 false).take 32 ∧
    (get_coding_scheme_warnings_block0 5 (List.replicate 64 false)).2.1 =
      (get_coding_scheme_warnings_block0 5 (List.replicate 64 false)).1.count true ∧
    ((get_coding_scheme_warnings_block0 5 (List.replicate 64 false)).2.2 = true ↔
      (get_coding_scheme_warnings_block0 5 (List.replicate 64 false)).2.1 ≠ 0) :=
  claim_C5 5 (List.replicate 64 false) (by decide)

/-- A non-zero block's error fields. -/
structure OtherBlock where
  id : Nat
  num_errors : Nat
  fail : Bool
deriving DecidableEq

/-- Modelled from the spec: one `REGS.BLOCK_ERRORS` entry
(`mem_definition.py` is not under src): status register address,
error-count mask and offset, fail-bit index; the last three may be
absent for blocks without error tracking. -/
structure ErrLayout where
  addr_reg : Nat
  err_num_mask : Option Nat
  err_num_offs : Option Nat
  fail_bit : Option Nat

/-- The loop state of `get_coding_scheme_warnings` for non-zero blocks:
the last status register address read, its cached value, and the reads
performed. -/
structure AccState where
  old_addr_reg : Nat
  reg_value : Nat
  events : List Ev
deriving DecidableEq

/-- One non-zero-block iteration of `get_coding_scheme_warnings`:
skip if the layout lacks mask, offset or fail bit; read the status
register only when its address differs from the previously read one
(`old_addr_reg`); extract `fail` from the fail bit and `num_errors`
from the shifted mask of the (possibly cached) register value. -/
def accountBlockStep (env : Nat → Nat) (layouts : Nat → ErrLayout)
    (st : AccState) (blk : OtherBlock) : AccState × OtherBlock :=
  match (layouts blk.id).err_num_mask, (layouts blk.id).err_num_offs,
      (layouts blk.id).fail_bit with
  | some mask, some offs, some fbit =>
      if (layouts blk.id).addr_reg ≠ st.old_addr_reg then
        ({ old_addr_reg := (layouts blk.id).addr_reg,
           reg_value := env ((layouts blk.id).addr_reg),
           events := st.events ++
             [Ev.rd ((layouts blk.id).addr_reg) (env ((layouts blk.id).addr_reg))] },
         { blk with
           fail := decide (env ((layouts blk.id).addr_reg) &&& (1 <<< fbit) ≠ 0),
           num_errors := (env ((layouts blk.id).addr_reg) >>> offs) &&& mask })
      else
        (st, { blk with
          fail := decide (st.reg_value &&& (1 <<< fbit) ≠ 0),
          num_errors := (st.reg_value >>> offs) &&& mask })
  | _, _, _ => (st, blk)

/-- The non-zero-block loop of `get_coding_scheme_warnings`. -/
def accountBlocks (env : Nat → Nat) (layouts : Nat → ErrLayout)
    (st : AccState) : List OtherBlock → AccState × List OtherBlock
  | [] => (st, [])
  | b :: bs =>
      ((accountBlocks env layouts (accountBlockStep env layouts st b).1 bs).1,
        (accountBlockStep env layouts st b).2 ::
          (accountBlocks env layouts (accountBlockStep env layouts st b).1 bs).2)

/-- A layout entry with all three error fields present and a given
status register address. -/
abbrev FullLayoutAt (layouts : Nat → ErrLayout) (A : Nat) (id : Nat) : Prop :=
  (layouts id).addr_reg = A ∧ (layouts id).err_num_mask ≠ none ∧
    (layouts id).err_num_offs ≠ none ∧ (layouts id).fail_bit ≠ none

/-- The extraction `get_coding_scheme_warnings` performs on one block
from a status register value `v`, per the block's own layout. -/
def extractErrs (layouts : Nat → ErrLayout) (v : Nat) (blk : OtherBlock) :
    OtherBlock :=
  { blk with
    fail := decide (v &&& (1 <<< (layouts blk.id).fail_bit.getD 0) ≠ 0),
    num_errors := (v >>> (layouts blk.id).err_num_offs.getD 0) &&&
      (layouts blk.id).err_num_mask.getD 0 }

theorem accountBlockStep_synced (env : Nat → Nat) (layouts : Nat → ErrLayout)
    (A : Nat) (st : AccState) (b : OtherBlock)
    (hold : st.old_addr_reg = A) (hreg : st.reg_value = env A)
    (hfull : FullLayoutAt layouts A b.id) :
    accountBlockStep env layouts st b = (st, extractErrs layouts (env A) b) := by
  obtain ⟨hA, hm, ho, hf⟩ := hfull
  obtain ⟨mask, hmask⟩ := Option.ne_none_iff_exists'.mp hm
  obtain ⟨offs, hoffs⟩ := Option.ne_none_iff_exists'.mp ho
  obtain ⟨fbit, hfbit⟩ := Option.ne_none_iff_exists'.mp hf
  unfold accountBlockStep
  rw [hmask, hoffs, hfbit]
  dsimp only
  rw [if_neg (by rw [hA, hold]; simp)]
  unfold extractErrs
  rw [hmask, hoffs, hfbit, hreg]
  rfl

theorem accountBlocks_synced (env : Nat → Nat) (layouts : Nat → ErrLayout)
    (A : Nat) :
    ∀ (blocks : List OtherBlock) (st : AccState),
      st.old_addr_reg = A → st.reg_value = env A →
      (∀ b ∈ blocks, FullLayoutAt layouts A b.id) →
      (accountBlocks env layouts st blocks).1 = st ∧
      (accountBlocks env layouts st blocks).2 =
        blocks.map (extractErrs layouts (env A)) := by
  intro blocks
  induction blocks with
  | nil => intro st _ _ _; exact ⟨rfl, rfl⟩
  | cons b bs ih =>
      intro st hold hreg hall
      have hstep := accountBlockStep_synced env layouts A st b hold hreg
        (hall b (by simp))
      have hrest := ih st hold hreg (fun x hx => hall x (by simp [hx]))
      unfold accountBlocks
      rw [hstep]
      dsimp only
      exact ⟨hrest.1, by rw [hrest.2]; simp⟩

theorem accountBlockStep_skip (env : Nat → Nat) (layouts : Nat → ErrLayout)
    (st : AccState) (blk : OtherBlock)
    (h : (layouts blk.id).err_num_mask = none ∨
      (layouts blk.id).err_num_offs = none ∨ (layouts blk.id).fail_bit = none) :
    accountBlockStep env layouts st blk = (st, blk) := by
  unfold accountBlockStep
  cases hm : (layouts blk.id).err_num_mask <;>
    cases ho : (layouts blk.id).err_num_offs <;>
      cases hf : (layouts blk.id).fail_bit <;>
        first | rfl | simp_all

theorem accountBlockStep_fresh (env : Nat → Nat) (layouts : Nat → ErrLayout)
    (A : Nat) (st : AccState) (b : OtherBlock)
    (hne : A ≠ st.old_addr_reg) (hfull : FullLayoutAt layouts A b.id) :
    accountBlockStep env layouts st b =
      ({ old_addr_reg := A, reg_value := env A,
         events := st.events ++ [Ev.rd A (env A)] },
       extractErrs layouts (env A) b) := by
  obtain ⟨hA, hm, ho, hf⟩ := hfull
  obtain ⟨mask, hmask⟩ := Option.ne_none_iff_exists'.mp hm
  obtain ⟨offs, hoffs⟩ := Option.ne_none_iff_exists'.mp ho
  obtain ⟨fbit, hfbit⟩ := Option.ne_none_iff_exists'.mp hf
  unfold accountBlockStep
  rw [hmask, hoffs, hfbit]
  dsimp only
  rw [if_pos (by rw [hA]; exact hne), hA]
  unfold extractErrs
  rw [hmask, hoffs, hfbit]
  rfl

theorem accountBlocks_shared_run (env : Nat → Nat) (layouts : Nat → ErrLayout)
    (A : Nat) (st : AccState) (blocks : List OtherBlock)
    (hne : A ≠ st.old_addr_reg)
    (hall : ∀ b ∈ blocks, FullLayoutAt layouts A b.id)
    (hnil : blocks ≠ []) :
    (accountBlocks env layouts st blocks).1.events =
      st.events ++ [Ev.rd A (env A)] ∧
    (accountBlocks env layouts st blocks).2 =
      blocks.map (extractErrs layouts (env A)) := by
  cases blocks with
  | nil => exact absurd rfl hnil
  | cons b bs =>
      have hstep := accountBlockStep_fresh env layouts A st b hne (hall b (by simp))
      have hsync := accountBlocks_synced env layouts A bs
        { old_addr_reg := A, reg_value := env A,
          events := st.events ++ [Ev.rd A (env A)] }
        rfl rfl (fun x hx => hall x (by simp [hx]))
      unfold accountBlocks
      rw [hstep]
      dsimp only
      rw [hsync.1, hsync.2]
      exact ⟨rfl, rfl⟩

/-- A concrete shared-register layout for two blocks: both name status
register 100, with distinct masks, offsets and fail bits. -/
def layouts0 : Nat → ErrLayout := fun id =>
  if id = 1 then ⟨100, some 7, some 0, some 0⟩
  else if id = 2 then ⟨100, some 3, some 4, some 7⟩
  else ⟨0, none, none, none⟩

def blocks0 : List OtherBlock := [⟨1, 0, false⟩, ⟨2, 0, false⟩]

/-- **C6**: in one error-accounting pass over non-zero blocks: a block
whose layout lacks the error-count mask/offset or the fail bit is
skipped with its fields and the loop state untouched; otherwise `fail`
is the designated fail bit of the status value and `num_errors` its
shifted-and-masked error count, reading the status register only when
its address differs from the previously read one; consecutive blocks
naming the same status register cause exactly one read for the run,
with each block's fields still extracted per its own mask, offset and
fail bit — demonstrated concretely on two blocks sharing register 100. -/
theorem claim_C6 :
    (∀ (env : Nat → Nat) (layouts : Nat → ErrLayout) (st : AccState)
      (blk : OtherBlock),
      ((layouts blk.id).err_num_mask = none ∨
        (layouts blk.id).err_num_offs = none ∨ (layouts blk.id).fail_bit = none) →
      accountBlockStep env layouts st blk = (st, blk)) ∧
    (∀ (env : Nat → Nat) (layouts : Nat → ErrLayout) (A : Nat) (st : AccState)
      (b : OtherBlock), A ≠ st.old_addr_reg → FullLayoutAt layouts A b.id →
      accountBlockStep env layouts st b =
        ({ old_addr_reg := A, reg_value := env A,
           events := st.events ++ [Ev.rd A (env A)] },
         extractErrs layouts (env A) b)) ∧
    (∀ (env : Nat → Nat) (layouts : Nat → ErrLayout) (A : Nat) (st : AccState)
      (blocks : List OtherBlock), A ≠ st.old_addr_reg →
      (∀ b ∈ blocks, FullLayoutAt layouts A b.id) → blocks ≠ [] →
      (accountBlocks env layouts st blocks).1.events =
        st.events ++ [Ev.rd A (env A)] ∧
      (accountBlocks env layouts st blocks).2 =
        blocks.map (extractErrs layouts (env A))) ∧
    (∀ v : Nat,
      (accountBlocks (fun _ => v) layouts0 ⟨0, 0, []⟩ blocks0).1.events =
        [Ev.rd 100 v] ∧
      (accountBlocks (fun _ => v) layouts0 ⟨0, 0, []⟩ blocks0).2 =
        [⟨1, v &&& 7, decide (v &&& 1 ≠ 0)⟩,
          ⟨2, (v >>> 4) &&& 3, decide (v &&& 128 ≠ 0)⟩]) := by
  refine ⟨accountBlockStep_skip, accountBlockStep_fresh, accountBlocks_shared_run, ?_⟩
  intro v
  have h := accountBlocks_shared_run (fun _ => v) layouts0 100 ⟨0, 0, []⟩ blocks0
    (by decide) (by decide) (by decide)
  refine ⟨by rw [h.1]; rfl, by rw [h.2]; rfl⟩

/-! ## MAC fields (`EfuseMacField`) -/

/-- The errors `EfuseMacField` raises: a missing value, a wrong
colon count, a wrong hex-digit count, a non-hex digit (`binascii`
failure), a multicast first byte, or writing the factory MAC. -/
inductive MacErr
  | required
  | colonCount
  | hexLength
  | nonHex
  | multicast
  | factory
deriving DecidableEq

/-- One hexadecimal digit, upper or lower case. -/
def hexDigit (c : Char) : Option Nat :=
  if '0' ≤ c ∧ c ≤ '9' then some (c.toNat - '0'.toNat)
  else if 'a' ≤ c ∧ c ≤ 'f' then some (c.toNat - 'a'.toNat + 10)
  else if 'A' ≤ c ∧ c ≤ 'F' then some (c.toNat - 'A'.toNat + 10)
  else none

/-- `binascii.unhexlify`: hex-digit pairs to bytes; `none` on a
non-hex digit or odd length. -/
def unhexlify : List Char → Option (List Nat)
  | [] => some []
  | [_] => none
  | c1 :: c2 :: rest =>
      match hexDigit c1, hexDigit c2, unhexlify rest with
      | some h, some l, some bs => some ((16 * h + l) :: bs)
      | _, _, _ => none

/-- `EfuseMacField.check_format`: require a value with exactly 5 colons
whose colon-free remainder is 12 hex characters decoding to a first
byte with the multicast bit clear; return the decoded bytes. -/
def check_format : Option (List Char) → Except MacErr (List Nat)
  | none => .error .required
  | some s =>
      if s.count ':' ≠ 5 then .error .colonCount
      else
        if (s.filter (fun c => c != ':')).length ≠ 12 then .error .hexLength
        else
          match unhexlify (s.filter (fun c => c != ':')) with
          | none => .error .nonHex
          | some bindata =>
              if bindata.headI &&& 1 ≠ 0 then .error .multicast
              else .ok bindata

/-- `EfuseMacField.save`: only the custom MAC is writable; the factory
MAC fails with a policy error.  The base layer's `convert_to_bitstring`
(not under src) is modelled from the spec: it validates through
`check_format` before anything is staged, so an error result stages no
bytes (no state is mutated). -/
def mac_save (name : List Char) (new_value : Option (List Char)) :
    Except MacErr (List Nat) :=
  if name = ("CUSTOM_MAC").toList then check_format new_value
  else .error .factory

/-- **C7**: saving a MAC errors (staging nothing) exactly when the
field is the factory MAC or the candidate fails validation; validation
demands exactly six colon-separated 2-hex-digit groups (5 colons, 12
hex characters) whose first byte has the multicast bit clear, each
violation raising its own error: "AA:CD:EF:01:02:03" is accepted as
bytes AA CD EF 01 02 03, while "AB:CD:EF:01:02:03" (multicast),
"AA:CD:EF:01:02" (wrong group count) and "AACDEF010203" (no colons)
are rejected. -/
theorem claim_C7 :
    (∀ name v, (∃ e, mac_save name v = .error e) ↔
      (name ≠ ("CUSTOM_MAC").toList ∨ ∃ e, check_format v = .error e)) ∧
    (∀ name v, name ≠ ("CUSTOM_MAC").toList → mac_save name v = .error .factory) ∧
    (∀ v, mac_save (("CUSTOM_MAC").toList) v = check_format v) ∧
    check_format none = .error .required ∧
    (∀ s, s.count ':' ≠ 5 → check_format (some s) = .error .colonCount) ∧
    (∀ s, s.count ':' = 5 → (s.filter (fun c => c != ':')).length ≠ 12 →
      check_format (some s) = .error .hexLength) ∧
    (∀ s bs, s.count ':' = 5 → (s.filter (fun c => c != ':')).length = 12 →
      unhexlify (s.filter (fun c => c != ':')) = some bs →
      bs.headI &&& 1 ≠ 0 → check_format (some s) = .error .multicast) ∧
    (∀ s bs, s.count ':' = 5 → (s.filter (fun c => c != ':')).length = 12 →
      unhexlify (s.filter (fun c => c != ':')) = some bs →
      bs.headI &&& 1 = 0 → check_format (some s) = .ok bs) ∧
    check_format (some (("AA:CD:EF:01:02:03").toList)) =
      .ok [0xAA, 0xCD, 0xEF, 0x01, 0x02, 0x03] ∧
    check_format (some (("AB:CD:EF:01:02:03").toList)) = .error .multicast ∧
    check_format (some (("AA:CD:EF:01:02").toList)) = .error .colonCount ∧
    check_format (some (("AACDEF010203").toList)) = .error .colonCount ∧
    mac_save (("CUSTOM_MAC").toList) (some (("AA:CD:EF:01:02:03").toList)) =
      .ok [0xAA, 0xCD, 0xEF, 0x01, 0x02, 0x03] ∧
    mac_save (("MAC").toList) (some (("AA:CD:EF:01:02:03").toList)) =
      .error .factory := by
  have hcf : ∀ v, ∃ e bs, check_format v = .error e ∨ check_format v = .ok bs := by
    intro v
    cases hc : check_format v with
    | error e => exact ⟨e, [], Or.inl rfl⟩
    | ok bs => exact ⟨MacErr.required, bs, Or.inr rfl⟩
  refine ⟨?_, ?_, ?_, rfl, ?_, ?_, ?_, ?_, by rfl, by rfl, by rfl, by rfl,
    by rfl, by rfl⟩
  · intro name v
    unfold mac_save
    by_cases hn : name = ("CUSTOM_MAC").toList
    · rw [if_pos hn]
      simp [hn]
    · rw [if_neg hn]
      constructor
      · intro _
        exact Or.inl hn
      · intro _
        exact ⟨MacErr.factory, rfl⟩
  · intro name v hn
    unfold mac_save
    rw [if_neg hn]
  · intro v
    unfold mac_save
    rw [if_pos rfl]
  · intro s h
    simp [check_format, h]
  · intro s h1 h2
    simp [check_format, h1, h2]
  · intro s bs h1 h2 h3 h4
    have h4m : bs.headI % 2 = 1 := by
      rw [Nat.and_one_is_mod] at h4
      omega
    simp [check_format, h1, h2, h3, h4m]
  · intro s bs h1 h2 h3 h4
    have h4m : bs.headI % 2 = 0 := by
      rw [Nat.and_one_is_mod] at h4
      omega
    simp [check_format, h1, h2, h3, h4m]

/-! ## Typed calibration fields (`EfuseTempSensor`, `EfuseAdcPointCalibration`) -/

/-- `BitArray.uint`: big-endian unsigned interpretation of a bit list. -/
def uintBE (bits : List Bool) : Nat :=
  bits.foldl (fun a b => 2 * a + (if b then 1 else 0)) 0

/-- `EfuseTempSensor.get`: sign-magnitude fixed point with one decimal
digit — the most significant stored bit is the sign, the remaining bits
the magnitude, scaled by 0.1 (Python's float arithmetic modelled over
exact rationals). -/
def temp_sensor_get (bits : List Bool) : ℚ :=
  (if bits.headI then -1 else 1) * (uintBE bits.tail : ℚ) * (1 / 10)

/-- `EfuseAdcPointCalibration.get`: sign-magnitude with step size 4. -/
def adc_point_get (bits : List Bool) : ℤ :=
  (if bits.headI then -1 else 1) * (uintBE bits.tail : ℤ) * 4

theorem uintBE_foldl_init (l : List Bool) :
    ∀ a : Nat, l.foldl (fun x b => 2 * x + (if b then 1 else 0)) a =
      a * 2 ^ l.length + l.foldl (fun x b => 2 * x + (if b then 1 else 0)) 0 := by
  induction l with
  | nil => intro a; simp
  | cons c l ih =>
      intro a
      rw [List.foldl_cons, List.foldl_cons, ih (2 * a + (if c then 1 else 0)),
        ih (2 * 0 + (if c then 1 else 0)), List.length_cons]
      ring

theorem uintBE_cons (b : Bool) (l : List Bool) :
    uintBE (b :: l) = (if b then 1 else 0) * 2 ^ l.length + uintBE l := by
  unfold uintBE
  rw [List.foldl_cons, uintBE_foldl_init l (2 * 0 + (if b then 1 else 0))]
  ring

theorem uintBE_natToBitsBE (k v : Nat) : uintBE (natToBitsBE k v) = v % 2 ^ k := by
  induction k with
  | zero => simp [natToBitsBE, uintBE, Nat.mod_one]
  | succ k ih =>
      show uintBE (v.testBit k :: natToBitsBE k v) = _
      rw [uintBE_cons, natToBitsBE_length, ih, Nat.testBit_to_div_mod,
        pow_succ, Nat.mod_mul]
      by_cases hp : v / 2 ^ k % 2 = 1
      · simp [hp]
        omega
      · simp [hp]
        omega

theorem testBit_top {k v : Nat} (hv : v < 2 ^ (k + 1)) :
    v.testBit k = decide (2 ^ k ≤ v) := by
  rw [Nat.testBit_to_div_mod]
  have hlt : v / 2 ^ k < 2 := Nat.div_lt_of_lt_mul (by rw [← pow_succ]; exact hv)
  have h1 : 1 ≤ v / 2 ^ k ↔ 2 ^ k ≤ v := Nat.one_le_div_iff (Nat.two_pow_pos k)
  rw [decide_eq_decide]
  generalize hq : v / 2 ^ k = d at hlt h1
  generalize he : 2 ^ k = e at h1
  omega

/-- **C9**: for every stored raw field value, `EfuseTempSensor.get`
returns sign-magnitude (most significant stored bit is the sign) times
the remaining bits read as an unsigned integer times 0.1, and
`EfuseAdcPointCalibration.get` the same with step size 4: top bit 1
with remaining bits 25 yields −2.5 / −100, top bit 0 with remaining
bits 25 yields +2.5 / +100. -/
theorem claim_C9 (k v : Nat) (hv : v < 2 ^ (k + 1)) :
    temp_sensor_get (natToBitsBE (k + 1) v) =
      (if 2 ^ k ≤ v then (-1 : ℚ) else 1) * ((v % 2 ^ k : Nat) : ℚ) * (1 / 10) ∧
    adc_point_get (natToBitsBE (k + 1) v) =
      (if 2 ^ k ≤ v then (-1 : ℤ) else 1) * ((v % 2 ^ k : Nat) : ℤ) * 4 ∧
    temp_sensor_get (natToBitsBE 8 (128 + 25)) = -(5 / 2 : ℚ) ∧
    adc_point_get (natToBitsBE 8 (128 + 25)) = -100 ∧
    temp_sensor_get (natToBitsBE 8 25) = (5 / 2 : ℚ) ∧
    adc_point_get (natToBitsBE 8 25) = 100 := by
  have hgen1 : ∀ j w : Nat, w < 2 ^ (j + 1) →
      temp_sensor_get (natToBitsBE (j + 1) w) =
        (if 2 ^ j ≤ w then (-1 : ℚ) else 1) * ((w % 2 ^ j : Nat) : ℚ) * (1 / 10) := by
    intro j w hw
    unfold temp_sensor_get
    rw [show (natToBitsBE (j + 1) w).headI = w.testBit j from rfl,
      show (natToBitsBE (j + 1) w).tail = natToBitsBE j w from rfl,
      uintBE_natToBitsBE, testBit_top hw]
    by_cases h : 2 ^ j ≤ w <;> simp [h]
  have hgen2 : ∀ j w : Nat, w < 2 ^ (j + 1) →
      adc_point_get (natToBitsBE (j + 1) w) =
        (if 2 ^ j ≤ w then (-1 : ℤ) else 1) * ((w % 2 ^ j : Nat) : ℤ) * 4 := by
    intro j w hw
    unfold adc_point_get
    rw [show (natToBitsBE (j + 1) w).headI = w.testBit j from rfl,
      show (natToBitsBE (j + 1) w).tail = natToBitsBE j w from rfl,
      uintBE_natToBitsBE, testBit_top hw]
    by_cases h : 2 ^ j ≤ w <;> simp [h]
  refine ⟨hgen1 k v hv, hgen2 k v hv,
    (hgen1 7 (128 + 25) (by norm_num)).trans (by norm_num),
    (hgen2 7 (128 + 25) (by norm_num)).trans (by norm_num),
    (hgen1 7 25 (by norm_num)).trans (by norm_num),
    (hgen2 7 25 (by norm_num)).trans (by norm_num)⟩

/-- Witness for C9 at the 8-bit raw value 128 + 25 (top bit set,
magnitude 25). -/
theorem claim_C9_witness :
    temp_sensor_get (natToBitsBE (7 + 1) 153) =
      (if 2 ^ 7 ≤ 153 then (-1 : ℚ) else 1) * ((153 % 2 ^ 7 : Nat) : ℚ) * (1 / 10) ∧
    adc_point_get (natToBitsBE (7 + 1) 153) =
      (if 2 ^ 7 ≤ 153 then (-1 : ℤ) else 1) * ((153 % 2 ^ 7 : Nat) : ℤ) * 4 ∧
    temp_sensor_get (natToBitsBE 8 (128 + 25)) = -(5 / 2 : ℚ) ∧
    adc_point_get (natToBitsBE 8 (128 + 25)) = -100 ∧
    temp_sensor_get (natToBitsBE 8 25) = (5 / 2 : ℚ) ∧
    adc_point_get (natToBitsBE 8 25) = 100 :=
  claim_C9 7 153 (by decide)
